import Mathlib

/-!
Shallow embedding of the MCP PDF extraction pipeline (`pdf_extractor.py`).

Text is modelled as `List Char`.  The Python string operations used by the
pipeline (`str.split()`, `str.split('\n\n')`, `str.strip()`, substring `in`,
`str.lower()`) are embedded as executable functions below, restricted to
ASCII whitespace/case semantics, which is all the pipeline's own rules use.
-/

/-- The whitespace characters recognised by Python's `str.split()` /
`str.strip()` (ASCII part). -/
def isSpaceChar (c : Char) : Bool :=
  c == ' ' || c == '\t' || c == '\n' || c == '\r' || c == '\x0b' || c == '\x0c'

/-- Emit the pending word (if any) while tokenising. -/
def flushWord (cur : List Char) : List (List Char) :=
  if cur.isEmpty then [] else [cur.reverse]

/-- Tokeniser behind `pyWords`; `cur` holds the current word reversed. -/
def wordsAux (cur : List Char) : List Char → List (List Char)
  | [] => flushWord cur
  | c :: cs =>
    if isSpaceChar c then flushWord cur ++ wordsAux [] cs
    else wordsAux (c :: cur) cs

/-- Python `s.split()`: split on whitespace runs, dropping empty pieces. -/
def pyWords (s : List Char) : List (List Char) :=
  wordsAux [] s

/-- Python `len(s.split())`, the word count used throughout the chunker. -/
def wordCount (s : List Char) : Nat :=
  (pyWords s).length

/-- Remove a trailing run of whitespace. -/
def dropTrailing (s : List Char) : List Char :=
  (s.reverse.dropWhile isSpaceChar).reverse

/-- Python `s.strip()`. -/
def pyStrip (s : List Char) : List Char :=
  dropTrailing (s.dropWhile isSpaceChar)

/-- Splitter behind `splitNN`; `acc` holds the current piece reversed.
Mirrors Python `s.split('\n\n')`: split at each non-overlapping,
left-to-right occurrence of two consecutive newlines. -/
def splitNNAux (acc : List Char) : List Char → List (List Char)
  | [] => [acc.reverse]
  | [c] => [(c :: acc).reverse]
  | c :: d :: rest =>
    if c = '\n' ∧ d = '\n' then acc.reverse :: splitNNAux [] rest
    else splitNNAux (c :: acc) (d :: rest)

/-- Python `s.split('\n\n')`. -/
def splitNN (s : List Char) : List (List Char) :=
  splitNNAux [] s

/-- Join pieces back with the `'\n\n'` separator (inverse of `splitNN`,
and the way `chunk_content` accumulates `current_chunk`). -/
def joinNN : List (List Char) → List Char
  | [] => []
  | [p] => p
  | p :: q :: ps => p ++ '\n' :: '\n' :: joinNN (q :: ps)

/-- Helper for `re.sub(r'\n{3,}', '\n\n', s)`: emit a pending newline run. -/
def emitNL (k : Nat) : List Char :=
  if 3 ≤ k then [ '\n', '\n' ] else List.replicate k '\n'

/-- Runs of three or more newlines are collapsed to exactly two;
`k` counts the pending newline run. -/
def collapseNLAux (k : Nat) : List Char → List Char
  | [] => emitNL k
  | c :: cs =>
    if c == '\n' then collapseNLAux (k + 1) cs
    else emitNL k ++ c :: collapseNLAux 0 cs

/-- The normalisation `extract_content` applies before chunking:
`re.sub(r'\n{3,}', '\n\n', full_text).strip()`. -/
def normalizeText (s : List Char) : List Char :=
  pyStrip (collapseNLAux 0 s)

/-- Python `str.lower()` (ASCII). -/
def lowerStr (s : List Char) : List Char :=
  s.map Char.toLower

/-- Whether `needle` starts `hay`, without type-class `BEq` noise. -/
def leadsWith : List Char → List Char → Bool
  | [], _ => true
  | _ :: _, [] => false
  | a :: as, b :: bs => a == b && leadsWith as bs

/-- Python substring test `needle in hay`. -/
def containsSub (needle : List Char) : List Char → Bool
  | [] => needle.isEmpty
  | c :: cs => leadsWith needle (c :: cs) || containsSub needle cs

/-! ## Chunker (`MCPPDFExtractor.chunk_content`) -/

/-- One element of the `chunks` list built by `chunk_content`. -/
structure Chunk where
  chunk_id : Nat
  text : List Char
  word_count : Nat
deriving DecidableEq

/-- The line `paragraphs = [p.strip() for p in text.split('\n\n') if p.strip()]`. -/
def parasOf (text : List Char) : List (List Char) :=
  ((splitNN text).map pyStrip).filter (fun p => !p.isEmpty)

/-- The paragraph loop of `chunk_content`.  State mirrors the Python locals:
`curChunk` is `current_chunk`, `curWords` is `current_words`, `chunks` the
accumulated list (`chunk_id` is assigned as `len(chunks)` at append time). -/
def chunkLoop (chunkSize : Nat) :
    List (List Char) → List Char → Nat → List Chunk → List Chunk
  | [], curChunk, curWords, chunks =>
    if curChunk.isEmpty then chunks
    else chunks ++ [⟨chunks.length, pyStrip curChunk, curWords⟩]
  | para :: paras, curChunk, curWords, chunks =>
    let paraWords := wordCount para
    if curWords + paraWords > chunkSize && !curChunk.isEmpty then
      chunkLoop chunkSize paras para paraWords
        (chunks ++ [⟨chunks.length, pyStrip curChunk, curWords⟩])
    else
      chunkLoop chunkSize paras
        (if curChunk.isEmpty then para else curChunk ++ '\n' :: '\n' :: para)
        (curWords + paraWords) chunks

/-- The method `MCPPDFExtractor.chunk_content` with `chunk_size = chunkSize`. -/
def chunk_content (chunkSize : Nat) (text : List Char) : List Chunk :=
  chunkLoop chunkSize (parasOf text) [] 0 []

/-- Sum of the word counts of a list of paragraphs. -/
def sumWords (ps : List (List Char)) : Nat :=
  (ps.map wordCount).sum

/-- Greedy grouping of paragraphs, written from the specification's words:
accumulate paragraphs into the current chunk while the running word count
does not exceed the budget; when adding the next paragraph would exceed the
budget, close the current chunk and start a new one with that paragraph
(a lone over-budget paragraph still becomes its own chunk). -/
def greedyGroupsAux (budget : Nat) (cur : List (List Char)) :
    List (List Char) → List (List (List Char))
  | [] => if cur.isEmpty then [] else [cur]
  | p :: ps =>
    if sumWords cur + wordCount p > budget && !cur.isEmpty then
      cur :: greedyGroupsAux budget [p] ps
    else
      greedyGroupsAux budget (cur ++ [p]) ps

/-- Greedy grouping of a whole paragraph list. -/
def greedyGroups (budget : Nat) (ps : List (List Char)) :
    List (List (List Char)) :=
  greedyGroupsAux budget [] ps

/-- The chunk record a paragraph group denotes. -/
def groupChunks (gs : List (List (List Char))) : List Chunk :=
  (List.enumFrom 0 gs).map (fun x => ⟨x.1, pyStrip (joinNN x.2), sumWords x.2⟩)

/-! ## Keyword extractor (`MCPPDFExtractor.extract_keywords`) -/

/-- A regex word character (`\w`, ASCII). -/
def isWordChar (c : Char) : Bool :=
  c.isAlpha || c.isDigit || c == '_'

/-- Whether a maximal word-character run is matched by
`\b[A-Z][a-zA-Z]{2,}\b`: all alphabetic, first letter uppercase,
length at least three. -/
def capToken (r : List Char) : Bool :=
  r.all Char.isAlpha && (match r with | [] => false | c :: _ => c.isUpper)
    && decide (3 ≤ r.length)

/-- Maximal runs of word characters, in order; `cur` is reversed. -/
def wordRunsAux (cur : List Char) : List Char → List (List Char)
  | [] => flushWord cur
  | c :: cs =>
    if isWordChar c then wordRunsAux (c :: cur) cs
    else flushWord cur ++ wordRunsAux [] cs

/-- Model of `re.findall(r'\b[A-Z][a-zA-Z]{2,}\b', text)`: the matches are exactly
the maximal word-character runs that are all-alphabetic, start with an
uppercase letter and have length at least three (a run containing a digit
or underscore, or adjacent to one, defeats the word boundary). -/
def findCapWords (s : List Char) : List (List Char) :=
  (wordRunsAux [] s).filter capToken

/-- The `stop_words` set of `extract_keywords`. -/
def stopWords : List (List Char) :=
  [ "the", "a", "an", "and", "or", "but", "in", "on", "at",
    "to", "for", "of", "with", "by", "from", "is", "are",
    "was", "were", "been", "be", "have", "has", "had", "will"
  ].map String.toList

/-- The update `word_freq[word] = word_freq.get(word, 0) + 1` on an insertion-ordered
association list (Python dicts preserve insertion order). -/
def bumpFreq (w : List Char) : List (List Char × Nat) → List (List Char × Nat)
  | [] => [(w, 1)]
  | (k, n) :: rest =>
    if k = w then (k, n + 1) :: rest else (k, n) :: bumpFreq w rest

/-- Stable descending insertion by count: the new element goes after every
earlier element of at least its count. -/
def insertDesc (x : List Char × Nat) :
    List (List Char × Nat) → List (List Char × Nat)
  | [] => [x]
  | y :: ys => if x.2 ≤ y.2 then y :: insertDesc x ys else x :: y :: ys

/-- Model of `sorted(word_freq.items(), key=lambda x: x[1], reverse=True)`:
Python's sort is stable, also with `reverse=True`. -/
def sortByCountDesc (l : List (List Char × Nat)) : List (List Char × Nat) :=
  l.foldl (fun acc x => insertDesc x acc) []

/-- The word-frequency dict built by `extract_keywords`. -/
def keywordFreq (text : List Char) : List (List Char × Nat) :=
  (findCapWords text).foldl
    (fun m w => if stopWords.contains (lowerStr w) then m else bumpFreq w m) []

/-- The method `MCPPDFExtractor.extract_keywords`. -/
def extract_keywords (text : List Char) (maxKeywords : Nat) : List (List Char) :=
  ((sortByCountDesc (keywordFreq text)).take maxKeywords).map Prod.fst

/-- The capitalised terms actually counted (stop words removed),
in scan order; first occurrences define the tie-break order. -/
def scannedWords (text : List Char) : List (List Char) :=
  (findCapWords text).filter (fun w => !stopWords.contains (lowerStr w))

/-- Keep the first occurrence of each element (dict key insertion order). -/
def dedupFirst (l : List (List Char)) : List (List Char) :=
  l.foldl (fun acc x => if x ∈ acc then acc else acc ++ [x]) []

/-! ## Classifier (`MCPPDFExtractor.classify_document_type`) -/

/-- The ordered rule table of `classify_document_type`. -/
def patterns : List (List Char × List (List Char)) :=
  [ ( "invoice".toList, [ "invoice", "receipt", "bill" ].map String.toList),
    ( "report".toList, [ "report", "analysis", "review" ].map String.toList),
    ( "contract".toList, [ "contract", "agreement" ].map String.toList),
    ( "manual".toList, [ "manual", "guide", "documentation" ].map String.toList),
    ( "presentation".toList, [ "presentation", "slides" ].map String.toList) ]

/-- The rule loop: for each rule in order, first the filename test, then the
text test, returning on the first hit. -/
def classifyLoop (fnL txtL : List Char) :
    List (List Char × List (List Char)) → List Char
  | [] => "document".toList
  | (t, kws) :: rest =>
    if kws.any (fun kw => containsSub kw fnL) then t
    else if kws.any (fun kw => containsSub kw txtL) then t
    else classifyLoop fnL txtL rest

/-- The method `MCPPDFExtractor.classify_document_type(text_sample, filename)`. -/
def classify_document_type (textSample filename : List Char) : List Char :=
  classifyLoop (lowerStr filename) (lowerStr textSample) patterns

/-! ## Index builder (`create_mcp_index`) -/

/-- The metadata fields of a document record that `create_mcp_index` and the
batch driver read. -/
structure DocMeta where
  filename : String
  relative_path : String
  title : String
  document_type : String
  page_count : Nat
  keywords : List String
deriving DecidableEq

/-- A per-document result dict as seen by `create_mcp_index`:
`success` mirrors `doc["status"] == "success"`; for error results the other
fields are not read by any modelled code path. -/
structure Doc where
  success : Bool
  document_id : String
  metadata : DocMeta
deriving DecidableEq

/-- The value stored in the `documents` map of the index. -/
structure DocInfo where
  filename : String
  path : String
  title : String
  type : String
  pages : Nat
deriving DecidableEq

/-- Python dict assignment `m[k] = v` on an insertion-ordered
association list. -/
def setKey (k : String) (v : α) : List (String × α) → List (String × α)
  | [] => [(k, v)]
  | (k2, v2) :: rest =>
    if k2 = k then (k, v) :: rest else (k2, v2) :: setKey k v rest

/-- The pair `if k not in m: m[k] = []` followed by `m[k].append(id)`. -/
def appendAt (k : String) (id : String) :
    List (String × List String) → List (String × List String)
  | [] => [(k, [id])]
  | (k2, l) :: rest =>
    if k2 = k then (k2, l ++ [id]) :: rest else (k2, l) :: appendAt k id rest

/-- Model of `str(Path(p).parent)` over a slash-separated relative path:
everything before the last separator, or `"."` when there is none. -/
def parentChars (s : List Char) : List Char :=
  match s.reverse.dropWhile (fun c => !(c == '/')) with
  | [] => [ '.' ]
  | _ :: rest => rest.reverse

/-- The sentinel folder name for the tree root. -/
def rootFolder : String := "root"

/-- Value of `str(Path(p).parent)` for a path directly in the root. -/
def dotFolder : String := "."

/-- The folder key used by `create_mcp_index`: the parent of the relative
path, with the tree root `"."` renamed `"root"`. -/
def folderOf (relPath : String) : String :=
  let p := String.mk (parentChars relPath.toList)
  if p = dotFolder then rootFolder else p

/-- The four lookup views plus header fields of the MCP index. -/
structure MCPIndex where
  version : String
  created_at : String
  document_count : Nat
  documents : List (String × DocInfo)
  by_type : List (String × List String)
  by_folder : List (String × List String)
  keywords : List (String × List String)
deriving DecidableEq

/-- The body of the `for doc in documents` loop of `create_mcp_index`. -/
def indexStep (idx : MCPIndex) (doc : Doc) : MCPIndex :=
  if !doc.success then idx
  else
    { idx with
      documents := setKey doc.document_id
        ⟨doc.metadata.filename, doc.metadata.relative_path,
          doc.metadata.title, doc.metadata.document_type,
          doc.metadata.page_count⟩ idx.documents,
      by_type := appendAt doc.metadata.document_type doc.document_id idx.by_type,
      by_folder := appendAt (folderOf doc.metadata.relative_path)
        doc.document_id idx.by_folder,
      keywords := doc.metadata.keywords.foldl
        (fun kw k => appendAt k doc.document_id kw) idx.keywords }

/-- The function `create_mcp_index(documents)`. The wall-clock reading
`datetime.now().isoformat()` is made an explicit argument `now`. -/
def create_mcp_index (now : String) (documents : List Doc) : MCPIndex :=
  documents.foldl indexStep
    { version := "3.0", created_at := now, document_count := documents.length,
      documents := [], by_type := [], by_folder := [], keywords := [] }

/-- An index with its timestamp field blanked, for comparing the
record-determined content of two indexes. -/
def eraseCreatedAt (idx : MCPIndex) : MCPIndex :=
  { idx with created_at := "" }

/-- All ids referenced from the `by_type`, `by_folder` and `keywords`
buckets of an index. -/
def bucketIds (idx : MCPIndex) : List String :=
  (idx.by_type.map Prod.snd).flatten ++ (idx.by_folder.map Prod.snd).flatten
    ++ (idx.keywords.map Prod.snd).flatten

/-! ## Batch driver (`process_pdfs_for_mcp`) -/

/-- One source file as the driver sees it: its relative path, the outcome of
`extract_content`, and whether each of the two possible `save_extraction`
calls (record into the mirrored tree, error record into `errors/`) would
succeed. -/
structure Job where
  rel : String
  result : Doc
  saveOk : Bool
  errSaveOk : Bool
deriving DecidableEq

/-- Observable filesystem-affecting actions of one batch run. -/
inductive Ev where
  | extractAttempt (rel : String)
  | recordSaved (rel : String)
  | recordSaveFailed (rel : String)
  | errorRecordSaved (rel : String)
  | errorRecordSaveFailed (rel : String)
  | indexSaved
  | folderMapSaved
deriving DecidableEq

/-- The events one iteration of the file loop produces. -/
def jobEvents (j : Job) : List Ev :=
  Ev.extractAttempt j.rel ::
    (if j.result.success then
      [if j.saveOk then Ev.recordSaved j.rel else Ev.recordSaveFailed j.rel]
    else
      [if j.errSaveOk then Ev.errorRecordSaved j.rel
       else Ev.errorRecordSaveFailed j.rel])

/-- The mutable state of the file loop. -/
structure BatchState where
  processed : Nat
  failed : Nat
  allDocuments : List Doc
  events : List Ev
deriving DecidableEq

/-- One iteration of `for pdf_file in source_path.rglob("*.pdf")`:
on success, `save_extraction` gates both the processed counter and the
in-memory accumulation; on extraction error, the failed counter always
increments and an error record is attempted under `errors/`. -/
def stepJob (st : BatchState) (j : Job) : BatchState :=
  if j.result.success then
    if j.saveOk then
      { processed := st.processed + 1, failed := st.failed,
        allDocuments := st.allDocuments ++ [j.result],
        events := st.events ++ jobEvents j }
    else
      { st with events := st.events ++ jobEvents j }
  else
    { st with failed := st.failed + 1, events := st.events ++ jobEvents j }

/-- The outcome of a whole batch run.  `crashed` is set when a final-phase
file write raises outside any handler (the index and folder-map writes are
unguarded in the source); `summaryShown` is the closing log summary of
processed vs failed counts, reached only if nothing crashed. -/
structure RunTrace where
  events : List Ev
  processedCount : Nat
  failedCount : Nat
  indexWritten : Option MCPIndex
  folderMapWritten : Bool
  crashed : Bool
  summaryShown : Bool
deriving DecidableEq

/-- The driver `process_pdfs_for_mcp`.  `sourceExists` models `source_path.exists()`,
`finalOk` whether writes directly under the output root succeed (they fail
when the output root cannot be created), `now` the index timestamp. -/
def process_pdfs_for_mcp (sourceExists : Bool) (finalOk : Bool) (now : String)
    (jobs : List Job) : RunTrace :=
  if !sourceExists then ⟨[], 0, 0, none, false, false, false⟩
  else
    let st := jobs.foldl stepJob ⟨0, 0, [], []⟩
    if st.allDocuments.isEmpty then
      -- `if all_documents:` is false: the index write is skipped entirely
      if finalOk then
        ⟨st.events ++ [Ev.folderMapSaved], st.processed, st.failed,
          none, true, false, true⟩
      else
        ⟨st.events, st.processed, st.failed, none, false, true, false⟩
    else
      if finalOk then
        ⟨st.events ++ [Ev.indexSaved, Ev.folderMapSaved], st.processed,
          st.failed, some (create_mcp_index now st.allDocuments), true,
          false, true⟩
      else
        ⟨st.events, st.processed, st.failed, none, false, true, false⟩

/-! ## Helper lemmas: batch driver -/

/-- The documents retained in memory by a run: successfully extracted and
successfully saved. -/
def savedDocs (jobs : List Job) : List Doc :=
  (jobs.filter (fun j => j.result.success && j.saveOk)).map Job.result

/-- Concatenated per-file events of a run. -/
def eventsOfJobs (jobs : List Job) : List Ev :=
  (jobs.map jobEvents).flatten

theorem foldl_stepJob_eq (jobs : List Job) (st : BatchState) :
    jobs.foldl stepJob st =
      ⟨st.processed + jobs.countP (fun j => j.result.success && j.saveOk),
        st.failed + jobs.countP (fun j => !j.result.success),
        st.allDocuments ++ savedDocs jobs,
        st.events ++ eventsOfJobs jobs⟩ := by
  induction jobs generalizing st with
  | nil => simp [savedDocs, eventsOfJobs]
  | cons j js ih =>
    cases hs : j.result.success <;> cases hk : j.saveOk <;>
      simp [stepJob, hs, hk, ih, savedDocs, eventsOfJobs, List.countP_cons,
        BatchState.mk.injEq, List.append_assoc] <;> omega

/-! ## Helper lemmas: index builder -/

theorem mem_keys_setKey_self (k : String) (v : α) (l : List (String × α)) :
    k ∈ (setKey k v l).map Prod.fst := by
  induction l with
  | nil => simp [setKey]
  | cons p rest ih =>
    obtain ⟨k2, v2⟩ := p
    by_cases h : k2 = k
    · simp [setKey, h]
    · simp only [setKey, if_neg h, List.map_cons, List.mem_cons]
      exact Or.inr ih

theorem mem_keys_setKey_of (k : String) (v : α) (l : List (String × α))
    (a : String) (ha : a ∈ l.map Prod.fst) :
    a ∈ (setKey k v l).map Prod.fst := by
  induction l with
  | nil => simp at ha
  | cons p rest ih =>
    obtain ⟨k2, v2⟩ := p
    rw [List.map_cons, List.mem_cons] at ha
    by_cases h : k2 = k
    · simp only [setKey, if_pos h, List.map_cons, List.mem_cons]
      rcases ha with ha | ha
      · exact Or.inl (by rw [ha]; exact h.symm ▸ rfl)
      · exact Or.inr ha
    · simp only [setKey, if_neg h, List.map_cons, List.mem_cons]
      rcases ha with ha | ha
      · exact Or.inl ha
      · exact Or.inr (ih ha)

theorem mem_vals_appendAt (k id : String) (m : List (String × List String))
    (x : String) (hx : x ∈ ((appendAt k id m).map Prod.snd).flatten) :
    x = id ∨ x ∈ (m.map Prod.snd).flatten := by
  induction m with
  | nil =>
    simp [appendAt] at hx
    exact Or.inl hx
  | cons p rest ih =>
    obtain ⟨k2, l2⟩ := p
    by_cases h : k2 = k
    · rw [show appendAt k id ((k2, l2) :: rest) = (k2, l2 ++ [id]) :: rest by
        simp [appendAt, h]] at hx
      rw [List.map_cons, List.flatten_cons, List.mem_append] at hx
      rcases hx with hx | hx
      · rw [List.mem_append] at hx
        rcases hx with hx | hx
        · exact Or.inr (by
            rw [List.map_cons, List.flatten_cons, List.mem_append]
            exact Or.inl hx)
        · exact Or.inl (by simpa using hx)
      · exact Or.inr (by
          rw [List.map_cons, List.flatten_cons, List.mem_append]
          exact Or.inr hx)
    · rw [show appendAt k id ((k2, l2) :: rest) = (k2, l2) :: appendAt k id rest by
        simp [appendAt, h]] at hx
      rw [List.map_cons, List.flatten_cons, List.mem_append] at hx
      rcases hx with hx | hx
      · exact Or.inr (by
          rw [List.map_cons, List.flatten_cons, List.mem_append]
          exact Or.inl hx)
      · rcases ih hx with h1 | h1
        · exact Or.inl h1
        · exact Or.inr (by
            rw [List.map_cons, List.flatten_cons, List.mem_append]
            exact Or.inr h1)

theorem mem_vals_foldl_appendAt (id : String) (ks : List String)
    (m : List (String × List String)) (x : String)
    (hx : x ∈ ((ks.foldl (fun kw k => appendAt k id kw) m).map Prod.snd).flatten) :
    x = id ∨ x ∈ (m.map Prod.snd).flatten := by
  induction ks generalizing m with
  | nil => exact Or.inr hx
  | cons k ks ih =>
    rcases ih (appendAt k id m) (by simpa using hx) with h1 | h1
    · exact Or.inl h1
    · exact mem_vals_appendAt k id m x h1

theorem bucketIds_indexStep (idx : MCPIndex) (d : Doc)
    (inv : ∀ id ∈ bucketIds idx, id ∈ idx.documents.map Prod.fst) :
    ∀ id ∈ bucketIds (indexStep idx d),
      id ∈ (indexStep idx d).documents.map Prod.fst := by
  intro id hid
  cases hd : d.success with
  | false =>
    rw [show indexStep idx d = idx by simp [indexStep, hd]] at hid ⊢
    exact inv id hid
  | true =>
    have hstep : indexStep idx d =
        { idx with
          documents := setKey d.document_id
            ⟨d.metadata.filename, d.metadata.relative_path,
              d.metadata.title, d.metadata.document_type,
              d.metadata.page_count⟩ idx.documents,
          by_type := appendAt d.metadata.document_type d.document_id idx.by_type,
          by_folder := appendAt (folderOf d.metadata.relative_path)
            d.document_id idx.by_folder,
          keywords := d.metadata.keywords.foldl
            (fun kw k => appendAt k d.document_id kw) idx.keywords } := by
      simp [indexStep, hd]
    rw [hstep] at hid ⊢
    have hin : id = d.document_id ∨ id ∈ bucketIds idx := by
      rw [bucketIds, List.mem_append, List.mem_append] at hid
      rcases hid with (h1 | h1) | h1
      · rcases mem_vals_appendAt _ _ _ _ h1 with h2 | h2
        · exact Or.inl h2
        · exact Or.inr (by rw [bucketIds]; simp only [List.mem_append]; exact Or.inl (Or.inl h2))
      · rcases mem_vals_appendAt _ _ _ _ h1 with h2 | h2
        · exact Or.inl h2
        · exact Or.inr (by rw [bucketIds]; simp only [List.mem_append]; exact Or.inl (Or.inr h2))
      · rcases mem_vals_foldl_appendAt _ _ _ _ h1 with h2 | h2
        · exact Or.inl h2
        · exact Or.inr (by rw [bucketIds]; simp only [List.mem_append]; exact Or.inr h2)
    rcases hin with h2 | h2
    · rw [h2]; exact mem_keys_setKey_self _ _ _
    · exact mem_keys_setKey_of _ _ _ _ (inv id h2)

theorem foldl_indexStep_closed (docs : List Doc) (idx : MCPIndex)
    (inv : ∀ id ∈ bucketIds idx, id ∈ idx.documents.map Prod.fst) :
    ∀ id ∈ bucketIds (docs.foldl indexStep idx),
      id ∈ (docs.foldl indexStep idx).documents.map Prod.fst := by
  induction docs generalizing idx with
  | nil => exact inv
  | cons d ds ih =>
    exact ih (indexStep idx d) (bucketIds_indexStep idx d inv)

theorem indexStep_created (idx : MCPIndex) (d : Doc) :
    (indexStep idx d).created_at = idx.created_at := by
  cases hd : d.success <;> simp [indexStep, hd]

theorem foldl_indexStep_created (docs : List Doc) (idx : MCPIndex) :
    (docs.foldl indexStep idx).created_at = idx.created_at := by
  induction docs generalizing idx with
  | nil => rfl
  | cons d ds ih => rw [List.foldl_cons, ih, indexStep_created]

theorem indexStep_erase (idx : MCPIndex) (d : Doc) :
    eraseCreatedAt (indexStep idx d) = indexStep (eraseCreatedAt idx) d := by
  cases hd : d.success <;> simp [indexStep, eraseCreatedAt, hd]

theorem foldl_indexStep_erase (docs : List Doc) (idx : MCPIndex) :
    eraseCreatedAt (docs.foldl indexStep idx) =
      docs.foldl indexStep (eraseCreatedAt idx) := by
  induction docs generalizing idx with
  | nil => rfl
  | cons d ds ih => rw [List.foldl_cons, ih, indexStep_erase, List.foldl_cons]

/-! ## Concrete fixtures used by counterexamples and witnesses -/

def ts0 : String := "t0"
def ts1 : String := "2024-01-01T00:00:00"
def ts2 : String := "2024-01-01T00:00:01"
def relA : String := "a.pdf"
def relB : String := "sub/b.pdf"

/-- A successfully extracted document record. -/
def exDoc : Doc :=
  ⟨true, "doc1", ⟨ "a.pdf", "a.pdf", "Title A", "report", 3, [ "Alpha" ]⟩⟩

/-- A second successfully extracted document record. -/
def exDocB : Doc :=
  ⟨true, "doc2", ⟨ "b.pdf", "sub/b.pdf", "Title B", "invoice", 1, [ "Beta" ]⟩⟩

/-- An extraction failure record. -/
def exErr : Doc :=
  ⟨false, "", ⟨ "", "", "", "", 0, []⟩⟩

/-! ## Claim C8 -/

/-- Claim C8, counterexample: `create_mcp_index` stamps the ambient clock
reading into `created_at`, so two calls on the same (empty) record list at
different times yield different indexes. -/
theorem c8_counterexample :
    create_mcp_index ts1 [] ≠ create_mcp_index ts2 [] := by
  intro h
  have h2 := congrArg MCPIndex.created_at h
  rw [create_mcp_index, create_mcp_index, foldl_indexStep_created,
    foldl_indexStep_created] at h2
  exact absurd h2 (by decide)

/-- Claim C8 (amended): apart from the `created_at` timestamp, the index
returned by `create_mcp_index` is a function of the input record list only:
with the timestamp field erased, two calls on equal input lists give equal
indexes; the timestamp itself is exactly the clock reading. -/
theorem c8_index_functional (t1 t2 : String) (docs : List Doc) :
    eraseCreatedAt (create_mcp_index t1 docs) =
        eraseCreatedAt (create_mcp_index t2 docs) ∧
      (create_mcp_index t1 docs).created_at = t1 := by
  constructor
  · rw [create_mcp_index, create_mcp_index, foldl_indexStep_erase,
      foldl_indexStep_erase]
    rfl
  · rw [create_mcp_index, foldl_indexStep_created]

/-! ## Claim C9 -/

/-- Claim C9: in the index built by `create_mcp_index`, every id appearing
in any bucket of `by_type`, `by_folder` or `keywords` is a key of the
`documents` map. -/
theorem c9_bucket_ids_in_documents (now : String) (docs : List Doc)
    (id : String) (h : id ∈ bucketIds (create_mcp_index now docs)) :
    id ∈ (create_mcp_index now docs).documents.map Prod.fst := by
  refine foldl_indexStep_closed docs _ ?_ id h
  intro x hx
  simp [bucketIds] at hx

/-- Claim C9, witness: a two-record batch; the id found in the `by_type`
buckets is a key of `documents`. -/
theorem c9_witness :
    (exDoc.document_id ∈ bucketIds (create_mcp_index ts1 [exDoc, exDocB])) ∧
      exDoc.document_id ∈
        (create_mcp_index ts1 [exDoc, exDocB]).documents.map Prod.fst :=
  ⟨by decide, c9_bucket_ids_in_documents ts1 [exDoc, exDocB]
    exDoc.document_id (by decide)⟩

/-! ## Claim C10 -/

/-- Claim C10, counterexample: a run over an empty source tree completes its
(per-file) pass and its final phase — the closing summary is reached and
nothing crashes — yet no index artifact is written, because the index write
is guarded by `if all_documents:`. -/
theorem c10_counterexample :
    (process_pdfs_for_mcp true true ts0 []).summaryShown = true ∧
      (process_pdfs_for_mcp true true ts0 []).crashed = false ∧
      (process_pdfs_for_mcp true true ts0 []).indexWritten = none :=
  ⟨rfl, rfl, rfl⟩

/-- Claim C10 (amended): a batch run that completes the per-file pass with
working final writes produces the index artifact if and only if at least one
document was successfully processed and saved; with zero such documents the
index write is skipped entirely (only the folder map is written). -/
theorem c10_index_written_iff (now : String) (jobs : List Job) :
    (process_pdfs_for_mcp true true now jobs).summaryShown = true ∧
      (process_pdfs_for_mcp true true now jobs).indexWritten =
        (if (savedDocs jobs).isEmpty then none
          else some (create_mcp_index now (savedDocs jobs))) := by
  by_cases he : (savedDocs jobs).isEmpty <;>
    simp [process_pdfs_for_mcp, foldl_stepJob_eq, he]

/-! ## Claim C7 -/

/-- The per-job save oracle modelling an output root that cannot be
created: every `save_extraction` call fails, as does every final write. -/
def rootlessJob (j : Job) : Prop := j.saveOk = false ∧ j.errSaveOk = false

theorem countP_saved_eq_zero (jobs : List Job)
    (h : ∀ j ∈ jobs, rootlessJob j) :
    jobs.countP (fun k => k.result.success && k.saveOk) = 0 := by
  induction jobs with
  | nil => rfl
  | cons j js ih =>
    rw [List.countP_cons]
    have hj := (h j (by simp)).1
    rw [ih (fun k hk => h k (by simp [hk]))]
    simp [hj]

theorem savedDocs_eq_nil (jobs : List Job)
    (h : ∀ j ∈ jobs, rootlessJob j) : savedDocs jobs = [] := by
  have hf : jobs.filter (fun j => j.result.success && j.saveOk) = [] := by
    rw [List.filter_eq_nil_iff]
    intro j hj
    simp [(h j hj).1]
  simp only [savedDocs, hf, List.map_nil]

/-- Claim C7, counterexample: with an output root that cannot be created
(every save and final write fails), the run still attempts per-file
extraction — here the one file's extraction attempt is in the event trace —
contradicting "no per-file extraction is attempted". -/
theorem c7_counterexample :
    Ev.extractAttempt relA ∈
        (process_pdfs_for_mcp true false ts0 [⟨relA, exDoc, false, false⟩]).events ∧
      (process_pdfs_for_mcp true false ts0
        [⟨relA, exDoc, false, false⟩]).crashed = true := by
  constructor
  · decide
  · decide

/-- Claim C7 (amended): when the output root cannot be created, the run does
not abort up front: every file is still extracted (the event trace is the
full per-file trace), nothing is persisted and no document is counted as
processed, no index is written, and the run finally crashes in the closing
phase (at the unguarded folder-map write), so the summary is never reached. -/
theorem c7_no_early_abort (now : String) (jobs : List Job)
    (h : ∀ j ∈ jobs, rootlessJob j) :
    (process_pdfs_for_mcp true false now jobs).events = eventsOfJobs jobs ∧
      (process_pdfs_for_mcp true false now jobs).processedCount = 0 ∧
      (process_pdfs_for_mcp true false now jobs).indexWritten = none ∧
      (process_pdfs_for_mcp true false now jobs).crashed = true ∧
      (process_pdfs_for_mcp true false now jobs).summaryShown = false := by
  have hs := savedDocs_eq_nil jobs h
  have hc := countP_saved_eq_zero jobs h
  simp [process_pdfs_for_mcp, foldl_stepJob_eq, hs, hc]

/-- Claim C7, witness: the amended theorem applied to a one-file batch under
a non-creatable output root. -/
theorem c7_witness :
    (process_pdfs_for_mcp true false ts0 [⟨relB, exDocB, false, false⟩]).events =
        eventsOfJobs [⟨relB, exDocB, false, false⟩] ∧
      (process_pdfs_for_mcp true false ts0
          [⟨relB, exDocB, false, false⟩]).processedCount = 0 := by
  have h := c7_no_early_abort ts0 [⟨relB, exDocB, false, false⟩]
    (by intro j hj; rw [List.mem_singleton] at hj; rw [hj]; exact ⟨rfl, rfl⟩)
  exact ⟨h.1, h.2.1⟩

/-! ## Claim C6 -/

theorem eventsOfJobs_append (a b : List Job) :
    eventsOfJobs (a ++ b) = eventsOfJobs a ++ eventsOfJobs b := by
  simp [eventsOfJobs]

theorem eventsOfJobs_cons (j : Job) (js : List Job) :
    eventsOfJobs (j :: js) = jobEvents j ++ eventsOfJobs js := by
  simp [eventsOfJobs]

/-- Claim C6, counterexample: one file whose extraction succeeds but whose
record cannot be persisted.  The run ends with `processed = 0` and
`failed = 0` and no error record was written: the document counts in
neither tally, contradicting the claimed per-document error record and
failed-count accounting. -/
theorem c6_counterexample :
    (process_pdfs_for_mcp true true ts0 [⟨relA, exDoc, false, true⟩]).processedCount = 0 ∧
      (process_pdfs_for_mcp true true ts0 [⟨relA, exDoc, false, true⟩]).failedCount = 0 ∧
      (process_pdfs_for_mcp true true ts0 [⟨relA, exDoc, false, true⟩]).summaryShown = true ∧
      Ev.errorRecordSaved relA ∉
        (process_pdfs_for_mcp true true ts0 [⟨relA, exDoc, false, true⟩]).events ∧
      Ev.errorRecordSaveFailed relA ∉
        (process_pdfs_for_mcp true true ts0 [⟨relA, exDoc, false, true⟩]).events := by
  refine ⟨rfl, rfl, rfl, ?_, ?_⟩ <;> decide

/-- Claim C6 (amended): when extraction succeeds but the record cannot be
persisted, the batch does continue to the next file, but the document is
counted in neither the processed nor the failed tally of the final summary
and no per-document error record is written for it — its only trace is the
failed record-save event; only extraction failures feed the failed count. -/
theorem c6_save_failure_dropped (now : String) (finalOk : Bool)
    (l1 l2 : List Job) (j : Job)
    (hs : j.result.success = true) (hk : j.saveOk = false) :
    (process_pdfs_for_mcp true finalOk now (l1 ++ j :: l2)).processedCount =
        (l1 ++ j :: l2).countP (fun k => k.result.success && k.saveOk) ∧
      (process_pdfs_for_mcp true finalOk now (l1 ++ j :: l2)).failedCount =
        (l1 ++ j :: l2).countP (fun k => !k.result.success) ∧
      ∃ fin, (process_pdfs_for_mcp true finalOk now (l1 ++ j :: l2)).events =
          eventsOfJobs l1 ++
            [Ev.extractAttempt j.rel, Ev.recordSaveFailed j.rel] ++
            eventsOfJobs l2 ++ fin ∧
        ∀ e ∈ fin, e = Ev.indexSaved ∨ e = Ev.folderMapSaved := by
  have hj : jobEvents j = [Ev.extractAttempt j.rel, Ev.recordSaveFailed j.rel] := by
    simp [jobEvents, hs, hk]
  have hev : eventsOfJobs (l1 ++ j :: l2) =
      eventsOfJobs l1 ++ [Ev.extractAttempt j.rel, Ev.recordSaveFailed j.rel]
        ++ eventsOfJobs l2 := by
    rw [eventsOfJobs_append, eventsOfJobs_cons, hj, List.append_assoc]
  by_cases he : (savedDocs (l1 ++ j :: l2)).isEmpty <;>
    cases finalOk <;>
      simp only [process_pdfs_for_mcp, Bool.not_true, Bool.false_eq_true,
        if_false, foldl_stepJob_eq, List.nil_append, Nat.zero_add, he,
        if_true, if_false, Bool.true_eq_false] <;>
    refine ⟨by trivial, by trivial, ?_⟩
  · exact ⟨[], by rw [hev, List.append_nil], by simp⟩
  · exact ⟨[Ev.folderMapSaved], by rw [hev], by simp⟩
  · exact ⟨[], by rw [hev, List.append_nil], by simp⟩
  · exact ⟨[Ev.indexSaved, Ev.folderMapSaved], by rw [hev], by simp⟩

/-- Claim C6, witness: the amended theorem applied to a two-file batch whose
first file's record save fails. -/
theorem c6_witness :
    (process_pdfs_for_mcp true true ts0
        ([] ++ (⟨relA, exDoc, false, true⟩ : Job) :: [⟨relB, exErr, true, true⟩])).processedCount =
      (([] ++ (⟨relA, exDoc, false, true⟩ : Job) :: [⟨relB, exErr, true, true⟩] :
          List Job)).countP (fun k => k.result.success && k.saveOk) := by
  have h := c6_save_failure_dropped ts0 true [] [⟨relB, exErr, true, true⟩]
    ⟨relA, exDoc, false, true⟩ rfl rfl
  exact h.1

/-! ## Claim C1 -/

def tyInvoice : List Char := "invoice".toList
def tyReport : List Char := "report".toList
def fnReport : List Char := "report".toList
def txtInvoice : List Char := "invoice total due".toList
def fnReportQ3 : List Char := "report_q3".toList
def txtContract : List Char := "this contract agreement".toList

/-- Claim C1, counterexample: for filename stem `report` (which matches a
keyword of the `report` rule, and of no other rule) and text sample
`invoice total due`, the classifier returns `invoice`, not `report`: the
text sample decided the outcome even though a rule keyword matched the
filename, because the text test of the earlier `invoice` rule runs before
the filename test of the `report` rule. -/
theorem c1_counterexample :
    containsSub tyReport (lowerStr fnReport) = true ∧
      patterns.all
        (fun r => decide (r.1 = tyReport) ||
          r.2.all (fun kw => !containsSub kw (lowerStr fnReport))) = true ∧
      classify_document_type txtInvoice fnReport = tyInvoice ∧
      tyInvoice ≠ tyReport := by
  refine ⟨by decide, by decide, by decide, by decide⟩

theorem classifyLoop_append_unmatched (fnL txtL : List Char)
    (pre rest : List (List Char × List (List Char)))
    (hpre : ∀ r ∈ pre, ∀ kw ∈ r.2, containsSub kw fnL = false ∧
      containsSub kw txtL = false) :
    classifyLoop fnL txtL (pre ++ rest) = classifyLoop fnL txtL rest := by
  induction pre with
  | nil => rfl
  | cons r pre ih =>
    obtain ⟨t2, k2⟩ := r
    have h1 : k2.any (fun kw => containsSub kw fnL) = false := by
      rw [List.any_eq_false]
      intro kw hkw
      simp [(hpre (t2, k2) (by simp) kw hkw).1]
    have h2 : k2.any (fun kw => containsSub kw txtL) = false := by
      rw [List.any_eq_false]
      intro kw hkw
      simp [(hpre (t2, k2) (by simp) kw hkw).2]
    rw [List.cons_append, classifyLoop, h1, h2]
    simp only [Bool.false_eq_true, if_false]
    exact ih (fun r hr => hpre r (by simp [hr]))

/-- Claim C1 (amended): rules are scanned in order with the filename test
immediately before the text test of the same rule, so a filename match on a
rule wins only over that rule's own text match and over later rules; if some
keyword of a rule matches the lowercased filename and no keyword of any
earlier rule occurs in the lowercased filename or text sample, that rule's
type is returned regardless of the rest of the text.  (A text-sample match
on a strictly earlier rule overrides a filename match, see the
counterexample; the spec's report-filename/contract-content scenario still
classifies as `report` because the contract rule comes after the report
rule.) -/
theorem c1_first_matching_rule (txt fn : List Char)
    (pre post : List (List Char × List (List Char)))
    (t : List Char) (kws : List (List Char))
    (hsplit : patterns = pre ++ (t, kws) :: post)
    (hfn : ∃ kw ∈ kws, containsSub kw (lowerStr fn) = true)
    (hpre : ∀ r ∈ pre, ∀ kw ∈ r.2, containsSub kw (lowerStr fn) = false ∧
      containsSub kw (lowerStr txt) = false) :
    classify_document_type txt fn = t := by
  rw [classify_document_type, hsplit,
    classifyLoop_append_unmatched _ _ _ _ hpre, classifyLoop]
  have h1 : kws.any (fun kw => containsSub kw (lowerStr fn)) = true := by
    rw [List.any_eq_true]
    obtain ⟨kw, hmem, hkw⟩ := hfn
    exact ⟨kw, hmem, hkw⟩
  rw [h1]
  simp

/-- Claim C1, witness: filename stem `report_q3` (report rule) with content
`this contract agreement` (contract rule) classifies as `report`. -/
theorem c1_witness : classify_document_type txtContract fnReportQ3 = tyReport := by
  have h := c1_first_matching_rule txtContract fnReportQ3
    [( "invoice".toList, [ "invoice", "receipt", "bill" ].map String.toList)]
    ([( "contract".toList, [ "contract", "agreement" ].map String.toList),
      ( "manual".toList, [ "manual", "guide", "documentation" ].map String.toList),
      ( "presentation".toList, [ "presentation", "slides" ].map String.toList)])
    tyReport ([ "report", "analysis", "review" ].map String.toList)
    (by decide) (by decide) (by decide)
  exact h

/-! ## Helper lemmas: words, strip and paragraph split -/

theorem wordsAux_append_space (sep : Char) (hsep : isSpaceChar sep = true) :
    ∀ (a : List Char) (cur : List Char) (b : List Char),
      wordsAux cur (a ++ sep :: b) = wordsAux cur a ++ wordsAux [] b := by
  intro a
  induction a with
  | nil =>
    intro cur b
    simp [wordsAux, hsep]
  | cons c a ih =>
    intro cur b
    by_cases hc : isSpaceChar c = true <;>
      simp [wordsAux, hc, ih, List.append_assoc]

theorem wordsAux_all_space (v : List Char)
    (hv : ∀ c ∈ v, isSpaceChar c = true) : wordsAux [] v = [] := by
  induction v with
  | nil => rfl
  | cons c cs ih =>
    have hc := hv c (by simp)
    simp only [wordsAux, hc, if_true, flushWord, List.isEmpty_nil,
      List.nil_append]
    exact ih (fun d hd => hv d (by simp [hd]))

theorem pyWords_append_spaces (u v : List Char)
    (hv : ∀ c ∈ v, isSpaceChar c = true) : pyWords (u ++ v) = pyWords u := by
  cases v with
  | nil => rw [List.append_nil]
  | cons c cs =>
    rw [pyWords, pyWords, wordsAux_append_space c (hv c (by simp)) u [] cs,
      wordsAux_all_space cs (fun d hd => hv d (by simp [hd])), List.append_nil]

theorem pyWords_dropWhile (s : List Char) :
    pyWords (s.dropWhile isSpaceChar) = pyWords s := by
  induction s with
  | nil => rfl
  | cons c cs ih =>
    by_cases hc : isSpaceChar c = true
    · rw [List.dropWhile_cons_of_pos hc, ih]
      simp [pyWords, wordsAux, hc, flushWord]
    · rw [List.dropWhile_cons_of_neg (by simp [hc])]

theorem pyWords_dropTrailing (s : List Char) :
    pyWords (dropTrailing s) = pyWords s := by
  have hsp : ∀ c ∈ (s.reverse.takeWhile isSpaceChar).reverse,
      isSpaceChar c = true := by
    intro c hc
    rw [List.mem_reverse] at hc
    exact List.mem_takeWhile_imp hc
  have hdecomp : dropTrailing s ++ (s.reverse.takeWhile isSpaceChar).reverse = s := by
    simp only [dropTrailing, ← List.reverse_append,
      List.takeWhile_append_dropWhile, List.reverse_reverse]
  calc pyWords (dropTrailing s)
      = pyWords (dropTrailing s ++ (s.reverse.takeWhile isSpaceChar).reverse) :=
        (pyWords_append_spaces _ _ hsp).symm
    _ = pyWords s := by rw [hdecomp]

theorem pyWords_pyStrip (s : List Char) : pyWords (pyStrip s) = pyWords s := by
  rw [pyStrip, pyWords_dropTrailing, pyWords_dropWhile]

theorem wordCount_pyStrip (s : List Char) : wordCount (pyStrip s) = wordCount s := by
  rw [wordCount, pyWords_pyStrip, wordCount]

theorem not_space_head_dropWhile (s : List Char) (c : Char) (cs : List Char)
    (h : s.dropWhile isSpaceChar = c :: cs) : isSpaceChar c = false := by
  induction s with
  | nil => cases h
  | cons d ds ih =>
    by_cases hd : isSpaceChar d = true
    · rw [List.dropWhile_cons_of_pos hd] at h
      exact ih h
    · rw [List.dropWhile_cons_of_neg (by simp [hd])] at h
      injection h with h1 h2
      rw [← h1]
      exact Bool.not_eq_true _ |>.mp hd

theorem dropTrailing_cons_of_not_space (c : Char) (cs : List Char)
    (hc : isSpaceChar c = false) :
    dropTrailing (c :: cs) = c :: dropTrailing cs := by
  simp only [dropTrailing, List.reverse_cons, List.dropWhile_append]
  by_cases h : (cs.reverse.dropWhile isSpaceChar).isEmpty
  · rw [if_pos h]
    rw [List.isEmpty_iff] at h
    rw [show List.dropWhile isSpaceChar [c] = [c] from
        List.dropWhile_cons_of_neg (by simp [hc]), h]
    rfl
  · rw [if_neg h, List.reverse_append]
    rfl

theorem dropWhile_space_idem (s : List Char) :
    (s.dropWhile isSpaceChar).dropWhile isSpaceChar = s.dropWhile isSpaceChar := by
  induction s with
  | nil => rfl
  | cons c cs ih =>
    by_cases hc : isSpaceChar c = true
    · rw [List.dropWhile_cons_of_pos hc, ih]
    · rw [List.dropWhile_cons_of_neg (by simp [hc]),
        List.dropWhile_cons_of_neg (by simp [hc])]

theorem dropTrailing_idem (s : List Char) :
    dropTrailing (dropTrailing s) = dropTrailing s := by
  simp only [dropTrailing, List.reverse_reverse, dropWhile_space_idem]

theorem pyStrip_idem (s : List Char) : pyStrip (pyStrip s) = pyStrip s := by
  rw [pyStrip, pyStrip]
  cases hx : s.dropWhile isSpaceChar with
  | nil => rfl
  | cons c cs =>
    have hc : isSpaceChar c = false := not_space_head_dropWhile s c cs hx
    rw [dropTrailing_cons_of_not_space c cs hc,
      List.dropWhile_cons_of_neg (by simp [hc]),
      dropTrailing_cons_of_not_space c _ hc, dropTrailing_idem]

theorem splitNNAux_ne_nil (acc s : List Char) : splitNNAux acc s ≠ [] := by
  induction acc, s using splitNNAux.induct with
  | case1 acc => simp [splitNNAux]
  | case2 acc c => simp [splitNNAux]
  | case3 acc c d rest hcd ih => simp [splitNNAux, hcd]
  | case4 acc c d rest hcd ih =>
    rw [show splitNNAux acc (c :: d :: rest) = splitNNAux (c :: acc) (d :: rest)
      from by simp [splitNNAux, hcd]]
    exact ih

theorem joinNN_splitNNAux (acc s : List Char) :
    joinNN (splitNNAux acc s) = acc.reverse ++ s := by
  induction acc, s using splitNNAux.induct with
  | case1 acc => simp [splitNNAux, joinNN]
  | case2 acc c => simp [splitNNAux, joinNN]
  | case3 acc c d rest hcd ih =>
    rw [show splitNNAux acc (c :: d :: rest) = acc.reverse :: splitNNAux [] rest
      from by simp [splitNNAux, hcd]]
    cases hsp : splitNNAux [] rest with
    | nil => exact absurd hsp (splitNNAux_ne_nil [] rest)
    | cons piece more =>
      rw [hsp] at ih
      rw [joinNN, ih, hcd.1, hcd.2]
      simp
  | case4 acc c d rest hcd ih =>
    rw [show splitNNAux acc (c :: d :: rest) = splitNNAux (c :: acc) (d :: rest)
      from by simp [splitNNAux, hcd], ih]
    simp

theorem joinNN_splitNN (s : List Char) : joinNN (splitNN s) = s := by
  rw [splitNN, joinNN_splitNNAux]
  rfl

theorem pyWords_joinNN (ps : List (List Char)) :
    pyWords (joinNN ps) = (ps.map pyWords).flatten := by
  induction ps with
  | nil => rfl
  | cons p ps ih =>
    cases ps with
    | nil => simp [joinNN]
    | cons q ps2 =>
      rw [joinNN, pyWords, wordsAux_append_space '\n' (by decide) p []
        ('\n' :: joinNN (q :: ps2))]
      rw [show wordsAux [] ('\n' :: joinNN (q :: ps2)) =
          wordsAux [] (joinNN (q :: ps2)) from by
        simp [wordsAux, flushWord, isSpaceChar]]
      rw [show wordsAux [] (joinNN (q :: ps2)) = pyWords (joinNN (q :: ps2))
        from rfl, ih]
      simp [pyWords]

theorem wordCount_eq_sumWords_splitNN (s : List Char) :
    wordCount s = sumWords (splitNN s) := by
  rw [wordCount, ← joinNN_splitNN s, pyWords_joinNN, List.length_flatten,
    sumWords, joinNN_splitNN]
  rw [List.map_map]
  rfl

theorem sumWords_map_pyStrip (l : List (List Char)) :
    sumWords (l.map pyStrip) = sumWords l := by
  rw [sumWords, sumWords, List.map_map]
  congr 1
  apply List.map_congr_left
  intro p hp
  exact wordCount_pyStrip p

theorem sumWords_filter_nonempty (l : List (List Char)) :
    sumWords (l.filter (fun p => !p.isEmpty)) = sumWords l := by
  induction l with
  | nil => rfl
  | cons p ps ih =>
    by_cases hp : p.isEmpty
    · rw [List.isEmpty_iff] at hp
      subst hp
      rw [show List.filter (fun p => !p.isEmpty) ([] :: ps) =
          List.filter (fun p => !p.isEmpty) ps from by simp, ih]
      simp [sumWords, wordCount, pyWords, wordsAux, flushWord]
    · rw [show List.filter (fun p => !p.isEmpty) (p :: ps) =
          p :: List.filter (fun p => !p.isEmpty) ps from by simp [hp]]
      simp only [sumWords, List.map_cons, List.sum_cons] at ih ⊢
      rw [ih]

theorem sumWords_parasOf (t : List Char) : sumWords (parasOf t) = wordCount t := by
  rw [parasOf, sumWords_filter_nonempty, sumWords_map_pyStrip,
    wordCount_eq_sumWords_splitNN]

/-- Total words emitted by the chunk loop: each paragraph's words land in
exactly one chunk's `word_count`.  The invariant `hemp` reflects that
`current_words` is `0` whenever `current_chunk` is empty. -/
theorem chunkLoop_sum (chunkSize : Nat) (paras : List (List Char)) :
    ∀ (curChunk : List Char) (curWords : Nat) (chunks : List Chunk),
      (curChunk.isEmpty = true → curWords = 0) →
      ((chunkLoop chunkSize paras curChunk curWords chunks).map
          Chunk.word_count).sum =
        (chunks.map Chunk.word_count).sum + curWords + sumWords paras := by
  induction paras with
  | nil =>
    intro curChunk curWords chunks hemp
    by_cases hc : curChunk.isEmpty
    · rw [chunkLoop, if_pos hc, hemp hc]
      simp [sumWords]
    · rw [chunkLoop, if_neg hc]
      simp [sumWords]
  | cons p ps ih =>
    intro curChunk curWords chunks hemp
    rw [chunkLoop]
    by_cases hc : curWords + wordCount p > chunkSize && !curChunk.isEmpty
    · rw [if_pos hc]
      rw [ih p (wordCount p) _ (by
        intro hpe
        rw [List.isEmpty_iff] at hpe
        simp [hpe, wordCount, pyWords, wordsAux, flushWord])]
      simp [sumWords]
      omega
    · rw [if_neg hc]
      rw [ih _ (curWords + wordCount p) chunks (by
        intro hie
        split at hie
        · rw [List.isEmpty_iff] at hie
          rename_i hce
          rw [hemp hce, hie]
          simp [wordCount, pyWords, wordsAux, flushWord]
        · simp at hie)]
      simp [sumWords]
      omega

/-- Claim C4: for every input text and chunk budget, the sum of
`word_count` over the chunks of `chunk_content` on the normalised document
text equals the whitespace-separated word count of that normalised text: no
words are dropped or duplicated by chunking. -/
theorem c4_chunk_words_conserved (chunkSize : Nat) (raw : List Char) :
    ((chunk_content chunkSize (normalizeText raw)).map Chunk.word_count).sum =
      wordCount (normalizeText raw) := by
  rw [chunk_content, chunkLoop_sum chunkSize _ [] 0 [] (fun _ => rfl),
    sumWords_parasOf]
  simp

theorem joinNN_append_singleton (xs : List (List Char)) (p : List Char)
    (hne : xs ≠ []) : joinNN (xs ++ [p]) = joinNN xs ++ '\n' :: '\n' :: p := by
  induction xs with
  | nil => exact absurd rfl hne
  | cons a rest ih =>
    cases rest with
    | nil => simp [joinNN]
    | cons b rest2 =>
      rw [show (a :: b :: rest2) ++ [p] = a :: ((b :: rest2) ++ [p]) from rfl,
        show (b :: rest2) ++ [p] = b :: (rest2 ++ [p]) from rfl]
      rw [joinNN, show b :: (rest2 ++ [p]) = (b :: rest2) ++ [p] from rfl,
        ih (by simp), joinNN]
      simp

theorem joinNN_isEmpty_false (cur : List (List Char)) (hne : cur ≠ [])
    (hall : ∀ q ∈ cur, q.isEmpty = false) : (joinNN cur).isEmpty = false := by
  cases cur with
  | nil => exact absurd rfl hne
  | cons a rest =>
    cases rest with
    | nil => exact hall a (by simp)
    | cons b rest2 =>
      rw [joinNN]
      have ha := hall a (by simp)
      cases hc : (a ++ '\n' :: '\n' :: joinNN (b :: rest2)).isEmpty with
      | false => rfl
      | true =>
        rw [List.isEmpty_iff, List.append_eq_nil] at hc
        rw [List.isEmpty_iff.mpr hc.1] at ha
        cases ha

theorem sumWords_append_singleton (xs : List (List Char)) (p : List Char) :
    sumWords (xs ++ [p]) = sumWords xs + wordCount p := by
  simp [sumWords]

theorem chunkLoop_eq_groups (budget : Nat) (paras : List (List Char)) :
    ∀ (cur : List (List Char)) (chunks : List Chunk),
      (∀ q ∈ paras, q.isEmpty = false) →
      (∀ q ∈ cur, q.isEmpty = false) →
      chunkLoop budget paras (joinNN cur) (sumWords cur) chunks =
        chunks ++
          (List.enumFrom chunks.length (greedyGroupsAux budget cur paras)).map
            (fun x => ⟨x.1, pyStrip (joinNN x.2), sumWords x.2⟩) := by
  induction paras with
  | nil =>
    intro cur chunks hpar hcur
    rw [chunkLoop, greedyGroupsAux]
    by_cases hce : cur.isEmpty
    · rw [if_pos (by rw [List.isEmpty_iff] at hce; subst hce; rfl), if_pos hce]
      simp
    · have hne : cur ≠ [] := by
        intro h
        rw [h] at hce
        exact hce rfl
      rw [if_neg (by rw [joinNN_isEmpty_false cur hne hcur]; simp),
        if_neg hce]
      simp [List.enumFrom]
  | cons p ps ih =>
    intro cur chunks hpar hcur
    have hpe : p.isEmpty = false := hpar p (by simp)
    have hps : ∀ q ∈ ps, q.isEmpty = false := fun q hq => hpar q (by simp [hq])
    rw [chunkLoop, greedyGroupsAux]
    by_cases hce : cur.isEmpty
    · rw [List.isEmpty_iff] at hce
      subst hce
      rw [show ((sumWords [] + wordCount p > budget : Bool) &&
          !(joinNN ([] : List (List Char))).isEmpty) = false from by simp [joinNN],
        show ((sumWords [] + wordCount p > budget : Bool) &&
          !(List.isEmpty ([] : List (List Char)))) = false from by simp]
      simp only [Bool.false_eq_true, if_false]
      have h2 := ih [p] chunks hps (by
        intro q hq
        rw [List.mem_singleton] at hq
        rw [hq]
        exact hpe)
      rw [show joinNN [p] = p from rfl] at h2
      rw [show (if (joinNN ([] : List (List Char))).isEmpty then p
          else joinNN ([] : List (List Char)) ++ '\n' :: '\n' :: p) = p from rfl]
      rw [show sumWords ([] : List (List Char)) + wordCount p = sumWords [p]
        from by simp [sumWords], h2]
      rfl
    · have hne : cur ≠ [] := by
        intro h
        rw [h] at hce
        exact hce rfl
      have hcef : cur.isEmpty = false := by
        cases hcc : cur.isEmpty
        · rfl
        · exact absurd hcc hce
      have hje : (joinNN cur).isEmpty = false := joinNN_isEmpty_false cur hne hcur
      by_cases hgt : sumWords cur + wordCount p > budget
      · have hd : decide (sumWords cur + wordCount p > budget) = true := by
          simp [hgt]
        rw [hje, hcef, hd]
        simp only [Bool.not_false, Bool.and_true, if_true]
        have h2 := ih [p] (chunks ++ [⟨chunks.length, pyStrip (joinNN cur),
          sumWords cur⟩]) hps (by
            intro q hq
            rw [List.mem_singleton] at hq
            rw [hq]
            exact hpe)
        rw [show joinNN [p] = p from rfl] at h2
        rw [show wordCount p = sumWords [p] from by simp [sumWords], h2]
        rw [List.enumFrom_cons, List.map_cons, List.length_append]
        simp [List.append_assoc]
      · have hd : decide (sumWords cur + wordCount p > budget) = false := by
          simp [hgt]
        rw [hje, hcef, hd]
        simp only [Bool.false_and, Bool.false_eq_true, if_false,
          Bool.not_false]
        have h2 := ih (cur ++ [p]) chunks hps (by
          intro q hq
          rw [List.mem_append] at hq
          rcases hq with hq | hq
          · exact hcur q hq
          · rw [List.mem_singleton] at hq
            rw [hq]
            exact hpe)
        rw [← joinNN_append_singleton cur p hne,
          ← sumWords_append_singleton cur p, h2]

/-- Refinement: `chunk_content` is exactly the greedy grouping of the stripped
paragraphs, with 0-based ids, `'\n\n'`-joined texts and summed counts. -/
theorem chunk_content_eq_groupChunks (budget : Nat) (text : List Char) :
    chunk_content budget text = groupChunks (greedyGroups budget (parasOf text)) := by
  have hpar : ∀ q ∈ parasOf text, q.isEmpty = false := by
    intro q hq
    rw [parasOf, List.mem_filter] at hq
    simpa using hq.2
  have h := chunkLoop_eq_groups budget (parasOf text) [] [] hpar (by simp)
  rw [show joinNN [] = [] from rfl] at h
  rw [show sumWords ([] : List (List Char)) = 0 from rfl] at h
  rw [chunk_content, h, greedyGroups, groupChunks]
  rfl

theorem pyStrip_mem_parasOf (t p : List Char) (hp : p ∈ parasOf t) :
    pyStrip p = p := by
  rw [parasOf, List.mem_filter, List.mem_map] at hp
  obtain ⟨⟨q, hq, rfl⟩, _⟩ := hp
  exact pyStrip_idem q

/-! ## Claim C2 -/

/-- Claim C2: `chunk_content` packs paragraphs greedily, in order: it equals
the specification's greedy grouping (close the current chunk exactly when
the next paragraph would push the running count over the budget; a closed
chunk never receives a later paragraph), and in particular five paragraphs
of 500 words each with budget 2000 give exactly two chunks: paragraphs 1-4
(2000 words) and paragraph 5 (500 words). -/
theorem c2_greedy_packing :
    (∀ budget text, chunk_content budget text =
        groupChunks (greedyGroups budget (parasOf text))) ∧
      ∀ text p1 p2 p3 p4 p5, parasOf text = [p1, p2, p3, p4, p5] →
        wordCount p1 = 500 → wordCount p2 = 500 → wordCount p3 = 500 →
        wordCount p4 = 500 → wordCount p5 = 500 →
        chunk_content 2000 text =
          [⟨0, pyStrip (joinNN [p1, p2, p3, p4]), 2000⟩, ⟨1, p5, 500⟩] := by
  refine ⟨chunk_content_eq_groupChunks, ?_⟩
  intro text p1 p2 p3 p4 p5 hps h1 h2 h3 h4 h5
  have hp5 : pyStrip p5 = p5 :=
    pyStrip_mem_parasOf text p5 (by rw [hps]; simp)
  rw [chunk_content_eq_groupChunks, hps, greedyGroups]
  simp [greedyGroupsAux, sumWords, h1, h2, h3, h4, h5, groupChunks,
    List.enumFrom, joinNN, hp5]

/-! ## Claim C3 -/

theorem greedyGroupsAux_flatten (budget : Nat) (paras : List (List Char)) :
    ∀ cur, cur ≠ [] → (greedyGroupsAux budget cur paras).flatten = cur ++ paras := by
  induction paras with
  | nil =>
    intro cur hne
    rw [greedyGroupsAux, if_neg (by simpa [List.isEmpty_iff] using hne)]
    simp
  | cons p ps ih =>
    intro cur hne
    rw [greedyGroupsAux]
    by_cases hb : (decide (sumWords cur + wordCount p > budget) && !cur.isEmpty) = true
    · rw [if_pos hb, List.flatten_cons, ih [p] (by simp)]
      simp
    · rw [if_neg hb, ih (cur ++ [p]) (by simp)]
      simp

theorem greedyGroupsAux_oversized (budget : Nat) (paras : List (List Char)) :
    ∀ cur, (∀ q ∈ cur, wordCount q > budget → cur = [q]) →
      ∀ g ∈ greedyGroupsAux budget cur paras, ∀ p ∈ g,
        wordCount p > budget → g = [p] := by
  induction paras with
  | nil =>
    intro cur inv g hg p hp hw
    rw [greedyGroupsAux] at hg
    split at hg
    · simp at hg
    · rw [List.mem_singleton] at hg
      subst hg
      exact inv p hp hw
  | cons q ps ih =>
    intro cur inv g hg p hp hw
    rw [greedyGroupsAux] at hg
    split at hg
    · rcases List.mem_cons.mp hg with hg | hg
      · subst hg
        exact inv p hp hw
      · exact ih [q] (by
          intro r hr _
          rw [List.mem_singleton] at hr
          rw [hr]) g hg p hp hw
    · rename_i hb
      refine ih (cur ++ [q]) ?_ g hg p hp hw
      intro r hr hrw
      rw [Bool.and_eq_true, not_and_or] at hb
      rcases hb with hb | hb
      · -- the running count would not exceed the budget
        have hle : sumWords cur + wordCount q ≤ budget := by
          rcases Nat.lt_or_ge budget (sumWords cur + wordCount q) with h | h
          · exact absurd (by simpa using h) hb
          · exact h
        rcases List.mem_append.mp hr with hr | hr
        · have : wordCount r ≤ sumWords cur :=
            List.single_le_sum (fun x _ => Nat.zero_le x) _
              (List.mem_map_of_mem wordCount hr)
          omega
        · rw [List.mem_singleton] at hr
          subst hr
          omega
      · -- the current chunk is empty, so the new chunk is the singleton
        have : cur = [] := by
          simpa [List.isEmpty_iff] using hb
        subst this
        rw [List.nil_append] at hr ⊢
        rw [List.mem_singleton] at hr
        rw [hr]

theorem mem_enumFrom_of_mem {α : Type} (a : α) (l : List α) (ha : a ∈ l) :
    ∀ n, ∃ i, (i, a) ∈ List.enumFrom n l := by
  induction l with
  | nil => cases ha
  | cons b bs ih =>
    intro n
    rcases List.mem_cons.mp ha with h | h
    · subst h
      exact ⟨n, by rw [List.enumFrom_cons]; simp⟩
    · obtain ⟨i, hi⟩ := ih h (n + 1)
      exact ⟨i, by rw [List.enumFrom_cons]; simp [hi]⟩

/-- Claim C3: a paragraph whose word count alone exceeds the budget is
never split: it occupies a chunk by itself, whose `word_count` exceeds the
budget; in particular a document whose normalised text is one paragraph of
2500 words with budget 2000 yields exactly one chunk of `word_count` 2500,
not two. -/
theorem c3_single_paragraph_exception :
    (∀ budget text p, p ∈ parasOf text → wordCount p > budget →
        ∃ c ∈ chunk_content budget text, c.text = p ∧
          c.word_count = wordCount p ∧ budget < c.word_count) ∧
      ∀ text p, parasOf text = [p] → wordCount p = 2500 →
        chunk_content 2000 text = [⟨0, p, 2500⟩] := by
  constructor
  · intro budget text p hp hw
    have hgrp : ∃ g ∈ greedyGroups budget (parasOf text), p ∈ g := by
      have hflat : (greedyGroups budget (parasOf text)).flatten = parasOf text := by
        cases hpe : parasOf text with
        | nil => rw [greedyGroups, greedyGroupsAux]; simp
        | cons a rest =>
          rw [greedyGroups, show greedyGroupsAux budget [] (a :: rest) =
              greedyGroupsAux budget [a] rest from by simp [greedyGroupsAux],
            greedyGroupsAux_flatten budget rest [a] (by simp)]
          rfl
      rw [← List.mem_flatten, hflat]
      exact hp
    obtain ⟨g, hg, hpg⟩ := hgrp
    have hsingle : g = [p] :=
      greedyGroupsAux_oversized budget (parasOf text) [] (by simp) g hg p hpg hw
    subst hsingle
    obtain ⟨i, hi⟩ := mem_enumFrom_of_mem _ _ hg 0
    refine ⟨⟨i, pyStrip (joinNN [p]), sumWords [p]⟩, ?_, ?_, ?_, ?_⟩
    · rw [chunk_content_eq_groupChunks budget text, groupChunks]
      exact List.mem_map_of_mem _ hi
    · rw [show joinNN [p] = p from rfl, pyStrip_mem_parasOf text p hp]
    · simp [sumWords]
    · simp [sumWords]
      omega
  · intro text p hps hw
    have hp : pyStrip p = p :=
      pyStrip_mem_parasOf text p (by rw [hps]; simp)
    rw [chunk_content_eq_groupChunks, hps, greedyGroups]
    simp [greedyGroupsAux, sumWords, hw, groupChunks, List.enumFrom,
      joinNN, hp]

/-- A paragraph of `n + 1` words: `n` copies of the word `a` followed by a
space, then a final `a`. -/
def mkPara (n : Nat) : List Char :=
  (List.replicate n ('a' :: [ ' ' ])).flatten ++ [ 'a' ]

theorem mkPara_zero : mkPara 0 = [ 'a' ] := rfl

theorem mkPara_succ (n : Nat) : mkPara (n + 1) = 'a' :: ' ' :: mkPara n := by
  simp [mkPara, List.replicate_succ]

theorem mkPara_head (n : Nat) : ∃ t, mkPara n = 'a' :: t := by
  cases n with
  | zero => exact ⟨[], mkPara_zero⟩
  | succ m => exact ⟨' ' :: mkPara m, mkPara_succ m⟩

theorem wordCount_mkPara (n : Nat) : wordCount (mkPara n) = n + 1 := by
  induction n with
  | zero => decide
  | succ n ih =>
    have ha : isSpaceChar 'a' = false := by decide
    have hs : isSpaceChar ' ' = true := by decide
    rw [mkPara_succ, wordCount, pyWords]
    rw [show wordsAux [] ('a' :: ' ' :: mkPara n) =
        [ 'a' ] :: wordsAux [] (mkPara n) from by
      simp [wordsAux, ha, hs, flushWord]]
    rw [List.length_cons]
    rw [wordCount, pyWords] at ih
    rw [ih]

theorem no_nl_mkPara (n : Nat) : ∀ c ∈ mkPara n, c ≠ '\n' := by
  induction n with
  | zero =>
    intro c hc
    rw [mkPara_zero, List.mem_singleton] at hc
    subst hc
    decide
  | succ n ih =>
    intro c hc
    rw [mkPara_succ] at hc
    rcases List.mem_cons.mp hc with h | hc2
    · subst h; decide
    · rcases List.mem_cons.mp hc2 with h | hc3
      · subst h; decide
      · exact ih c hc3

theorem mkPara_isEmpty (n : Nat) : (mkPara n).isEmpty = false := by
  obtain ⟨t, ht⟩ := mkPara_head n
  rw [ht]
  rfl

theorem pyStrip_mkPara (n : Nat) : pyStrip (mkPara n) = mkPara n := by
  obtain ⟨t, ht⟩ := mkPara_head n
  rw [pyStrip]
  rw [show (mkPara n).dropWhile isSpaceChar = mkPara n from by
    rw [ht]
    exact List.dropWhile_cons_of_neg (by decide)]
  rw [dropTrailing]
  rw [show (mkPara n).reverse =
      'a' :: ((List.replicate n ('a' :: [ ' ' ])).flatten).reverse from by
    rw [mkPara, List.reverse_append]
    rfl]
  rw [List.dropWhile_cons_of_neg (by decide), List.reverse_cons,
    List.reverse_reverse]
  rw [mkPara]

theorem splitNNAux_no_newline : ∀ (acc s : List Char),
    (∀ c ∈ s, c ≠ '\n') → splitNNAux acc s = [acc.reverse ++ s] := by
  intro acc s
  induction acc, s using splitNNAux.induct with
  | case1 acc => intro _; simp [splitNNAux]
  | case2 acc c => intro _; simp [splitNNAux]
  | case3 acc c d rest hcd ih =>
    intro hs
    exact absurd hcd.1 (hs c (by simp))
  | case4 acc c d rest hcd ih =>
    intro hs
    rw [show splitNNAux acc (c :: d :: rest) = splitNNAux (c :: acc) (d :: rest)
      from by simp [splitNNAux, hcd]]
    rw [ih (fun x hx => hs x (by simp [hx]))]
    simp

theorem splitNNAux_cut : ∀ (p : List Char), (∀ c ∈ p, c ≠ '\n') →
    ∀ (acc rest : List Char),
      splitNNAux acc (p ++ '\n' :: '\n' :: rest) =
        (acc.reverse ++ p) :: splitNNAux [] rest := by
  intro p
  induction p with
  | nil =>
    intro _ acc rest
    simp [splitNNAux]
  | cons c p' ih =>
    intro hp acc rest
    have hc : c ≠ '\n' := hp c (by simp)
    obtain ⟨d, t, hdt⟩ : ∃ d t, p' ++ '\n' :: '\n' :: rest = d :: t := by
      cases p' with
      | nil => exact ⟨_, _, rfl⟩
      | cons x xs => exact ⟨_, _, rfl⟩
    rw [List.cons_append, hdt, show splitNNAux acc (c :: d :: t) =
        splitNNAux (c :: acc) (d :: t) from by
      rw [splitNNAux.eq_def]
      exact if_neg (fun h => hc h.1)]
    rw [← hdt, ih (fun x hx => hp x (by simp [hx])) (c :: acc) rest]
    simp

theorem splitNN_joinNN_eq (ps : List (List Char)) (hne : ps ≠ [])
    (hnl : ∀ p ∈ ps, ∀ c ∈ p, c ≠ '\n') : splitNN (joinNN ps) = ps := by
  induction ps with
  | nil => exact absurd rfl hne
  | cons p rest ih =>
    cases rest with
    | nil =>
      rw [show joinNN [p] = p from rfl, splitNN,
        splitNNAux_no_newline [] p (hnl p (by simp))]
      rfl
    | cons q rest2 =>
      rw [joinNN, splitNN,
        splitNNAux_cut p (hnl p (by simp)) [] (joinNN (q :: rest2))]
      rw [show splitNNAux [] (joinNN (q :: rest2)) =
          splitNN (joinNN (q :: rest2)) from rfl,
        ih (by simp) (fun r hr => hnl r (by simp [hr]))]
      rfl

theorem parasOf_replicate_mkPara (k n : Nat) :
    parasOf (joinNN (List.replicate (k + 1) (mkPara n))) =
      List.replicate (k + 1) (mkPara n) := by
  rw [parasOf, splitNN_joinNN_eq _ (by simp) (by
    intro p hp
    rw [List.eq_of_mem_replicate hp]
    exact no_nl_mkPara n)]
  rw [List.map_replicate, pyStrip_mkPara]
  rw [List.filter_replicate]
  rw [mkPara_isEmpty]
  rfl

theorem parasOf_single_no_nl (s : List Char) (hnl : ∀ c ∈ s, c ≠ '\n')
    (hst : pyStrip s = s) (hne : s.isEmpty = false) : parasOf s = [s] := by
  rw [parasOf, splitNN, splitNNAux_no_newline [] s hnl]
  rw [show ([] : List Char).reverse ++ s = s from rfl]
  rw [List.map_cons, List.map_nil, hst]
  rw [show List.filter (fun p => !p.isEmpty) [s] = [s] from by
    simp [List.filter, hne]]

/-- Claim C2, witness: five concrete 500-word paragraphs with budget 2000
chunk into paragraphs 1-4 and paragraph 5. -/
theorem c2_witness :
    chunk_content 2000 (joinNN (List.replicate 5 (mkPara 499))) =
      [⟨0, pyStrip (joinNN [mkPara 499, mkPara 499, mkPara 499, mkPara 499]),
          2000⟩,
        ⟨1, mkPara 499, 500⟩] := by
  have hps : parasOf (joinNN (List.replicate 5 (mkPara 499))) =
      [mkPara 499, mkPara 499, mkPara 499, mkPara 499, mkPara 499] := by
    have h := parasOf_replicate_mkPara 4 499
    simpa using h
  have hw : wordCount (mkPara 499) = 500 := by rw [wordCount_mkPara]
  exact c2_greedy_packing.2 _ _ _ _ _ _ hps hw hw hw hw hw

/-- Claim C3, witness: one concrete 2500-word paragraph with budget 2000
yields a single chunk of 2500 words. -/
theorem c3_witness :
    chunk_content 2000 (mkPara 2499) = [⟨0, mkPara 2499, 2500⟩] := by
  have hps : parasOf (mkPara 2499) = [mkPara 2499] :=
    parasOf_single_no_nl _ (no_nl_mkPara 2499) (pyStrip_mkPara 2499)
      (mkPara_isEmpty 2499)
  exact c3_single_paragraph_exception.2 _ _ hps (by rw [wordCount_mkPara])

/-! ## Helper lemmas: keyword frequencies -/

theorem foldl_bump_filter (P : List Char → Bool) (l : List (List Char)) :
    ∀ m, l.foldl (fun m w => if P w then m else bumpFreq w m) m =
      (l.filter (fun w => !P w)).foldl (fun m w => bumpFreq w m) m := by
  induction l with
  | nil => intro m; rfl
  | cons w ws ih =>
    intro m
    by_cases hw : P w = true
    · rw [List.foldl_cons, if_pos hw,
        show List.filter (fun w => !P w) (w :: ws) =
          List.filter (fun w => !P w) ws from by simp [hw], ih]
    · rw [List.foldl_cons, if_neg hw,
        show List.filter (fun w => !P w) (w :: ws) =
          w :: List.filter (fun w => !P w) ws from by simp [hw], List.foldl_cons,
        ih]

theorem keywordFreq_eq_scanned (text : List Char) :
    keywordFreq text =
      (scannedWords text).foldl (fun m w => bumpFreq w m) [] := by
  rw [keywordFreq, scannedWords, foldl_bump_filter]

/-- One step of `dedupFirst`. -/
def dedupStep (acc : List (List Char)) (x : List Char) : List (List Char) :=
  if x ∈ acc then acc else acc ++ [x]

theorem dedupFirst_eq_foldl (l : List (List Char)) :
    dedupFirst l = l.foldl dedupStep [] := rfl

theorem mem_foldl_dedupStep (l : List (List Char)) :
    ∀ acc x, x ∈ l.foldl dedupStep acc ↔ x ∈ acc ∨ x ∈ l := by
  induction l with
  | nil => intro acc x; simp
  | cons a as ih =>
    intro acc x
    rw [List.foldl_cons, ih]
    constructor
    · rintro (h | h)
      · rw [dedupStep] at h
        split at h
        · exact Or.inl h
        · rw [List.mem_append] at h
          rcases h with h | h
          · exact Or.inl h
          · rw [List.mem_singleton] at h
            exact Or.inr (by simp [h])
      · exact Or.inr (by simp [h])
    · rintro (h | h)
      · refine Or.inl ?_
        rw [dedupStep]
        split
        · exact h
        · exact List.mem_append.mpr (Or.inl h)
      · rcases List.mem_cons.mp h with h | h
        · subst h
          refine Or.inl ?_
          rw [dedupStep]
          split
          · assumption
          · exact List.mem_append.mpr (Or.inr (by simp))
        · exact Or.inr h

theorem mem_dedupFirst (l : List (List Char)) (x : List Char) :
    x ∈ dedupFirst l ↔ x ∈ l := by
  rw [dedupFirst_eq_foldl, mem_foldl_dedupStep]
  simp

theorem nodup_foldl_dedupStep (l : List (List Char)) :
    ∀ acc, acc.Nodup → (l.foldl dedupStep acc).Nodup := by
  induction l with
  | nil => intro acc h; exact h
  | cons a as ih =>
    intro acc hacc
    rw [List.foldl_cons]
    refine ih _ ?_
    rw [dedupStep]
    split
    · exact hacc
    · rename_i hna
      simp [List.nodup_append, hacc, hna]

theorem nodup_dedupFirst (l : List (List Char)) : (dedupFirst l).Nodup := by
  rw [dedupFirst_eq_foldl]
  exact nodup_foldl_dedupStep l [] (by simp)

theorem dedupFirst_append_singleton (l : List (List Char)) (w : List Char) :
    dedupFirst (l ++ [w]) =
      if w ∈ dedupFirst l then dedupFirst l else dedupFirst l ++ [w] := by
  rw [dedupFirst_eq_foldl, List.foldl_append, List.foldl_cons, List.foldl_nil,
    dedupStep, dedupFirst_eq_foldl]

theorem bumpFreq_not_mem (w : List Char) (m : List (List Char × Nat))
    (hw : ∀ p ∈ m, p.1 ≠ w) : bumpFreq w m = m ++ [(w, 1)] := by
  induction m with
  | nil => rfl
  | cons p rest ih =>
    obtain ⟨k, n⟩ := p
    rw [bumpFreq, if_neg (hw (k, n) (by simp)), ih (fun q hq => hw q (by simp [hq]))]
    rfl

theorem bumpFreq_map_mem (L : List (List Char)) (g : List Char → Nat)
    (w : List Char) (hnd : L.Nodup) (hw : w ∈ L) :
    bumpFreq w (L.map (fun x => (x, g x))) =
      L.map (fun x => (x, if x = w then g x + 1 else g x)) := by
  induction L with
  | nil => cases hw
  | cons a as ih =>
    rw [List.map_cons, List.map_cons, bumpFreq]
    by_cases haw : a = w
    · rw [if_pos haw, if_pos haw]
      have hwas : w ∉ as := by
        rw [← haw]
        exact (List.nodup_cons.mp hnd).1
      have : as.map (fun x => (x, if x = w then g x + 1 else g x)) =
          as.map (fun x => (x, g x)) := by
        apply List.map_congr_left
        intro x hx
        rw [if_neg (by
          intro hxw
          exact hwas (hxw ▸ hx))]
      rw [this]
    · rw [if_neg haw, if_neg haw,
        ih (List.nodup_cons.mp hnd).2 (by
          rcases List.mem_cons.mp hw with h | h
          · exact absurd h.symm haw
          · exact h)]

theorem foldl_bumpFreq_eq (ws : List (List Char)) :
    ws.foldl (fun m w => bumpFreq w m) [] =
      (dedupFirst ws).map (fun w => (w, ws.count w)) := by
  induction ws using List.reverseRecOn with
  | nil => rfl
  | append_singleton ws w ih =>
    rw [List.foldl_append, List.foldl_cons, List.foldl_nil, ih,
      dedupFirst_append_singleton]
    by_cases hw : w ∈ dedupFirst ws
    · rw [if_pos hw, bumpFreq_map_mem _ _ w (nodup_dedupFirst ws) hw]
      apply List.map_congr_left
      intro x hx
      by_cases hxw : x = w
      · subst hxw
        rw [if_pos rfl, List.count_append]
        simp [List.count_cons]
      · rw [if_neg hxw, List.count_append]
        simp [List.count_cons, List.count_nil]
        intro h
        exact absurd h.symm hxw
    · rw [if_neg hw, bumpFreq_not_mem w _ (by
        intro p hp
        rw [List.mem_map] at hp
        obtain ⟨x, hx, rfl⟩ := hp
        intro hxw
        simp only at hxw
        rw [hxw] at hx
        exact hw hx)]
      rw [List.map_append]
      congr 1
      · apply List.map_congr_left
        intro x hx
        have hxw : x ≠ w := by
          intro h
          rw [h] at hx
          exact hw hx
        rw [List.count_append]
        simp [List.count_cons, List.count_nil]
        intro h
        exact absurd h.symm hxw
      · have hwm : w ∉ ws := fun hm => hw ((mem_dedupFirst ws w).mpr hm)
        rw [List.map_cons, List.map_nil, List.count_append]
        rw [List.count_eq_zero.mpr hwm]
        simp [List.count_cons]


/-- Position of the first occurrence of `w` in `l` (length of `l` when
absent): the tie-break order of the keyword sort. -/
def firstIdx (w : List Char) : List (List Char) → Nat
  | [] => 0
  | x :: xs => if x = w then 0 else firstIdx w xs + 1

theorem firstIdx_append_left (w : List Char) (l1 l2 : List (List Char))
    (h : w ∈ l1) : firstIdx w (l1 ++ l2) = firstIdx w l1 := by
  induction l1 with
  | nil => cases h
  | cons b bs ih =>
    rw [List.cons_append, firstIdx, firstIdx]
    by_cases hb : b = w
    · rw [if_pos hb, if_pos hb]
    · rw [if_neg hb, if_neg hb, ih (by
        rcases List.mem_cons.mp h with h1 | h1
        · exact absurd h1.symm hb
        · exact h1)]

theorem firstIdx_append_right (w : List Char) (l1 l2 : List (List Char))
    (h : w ∉ l1) : firstIdx w (l1 ++ l2) = l1.length + firstIdx w l2 := by
  induction l1 with
  | nil => simp
  | cons b bs ih =>
    have hb : b ≠ w := fun hh => h (by simp [hh])
    rw [List.cons_append, firstIdx, if_neg hb,
      ih (fun hh => h (by simp [hh]))]
    simp
    omega

theorem firstIdx_lt_length (w : List Char) (l : List (List Char))
    (h : w ∈ l) : firstIdx w l < l.length := by
  induction l with
  | nil => cases h
  | cons b bs ih =>
    rw [firstIdx]
    by_cases hb : b = w
    · rw [if_pos hb]
      simp
    · rw [if_neg hb, List.length_cons]
      have := ih (by
        rcases List.mem_cons.mp h with h1 | h1
        · exact absurd h1.symm hb
        · exact h1)
      omega

theorem pairwise_firstIdx_dedupFirst (ws : List (List Char)) :
    (dedupFirst ws).Pairwise (fun a b => firstIdx a ws < firstIdx b ws) := by
  induction ws using List.reverseRecOn with
  | nil => exact List.Pairwise.nil
  | append_singleton ws w ih =>
    rw [dedupFirst_append_singleton]
    by_cases hw : w ∈ dedupFirst ws
    · rw [if_pos hw]
      refine List.Pairwise.imp_of_mem ?_ ih
      intro a b ha hb hab
      rw [mem_dedupFirst] at ha hb
      rw [firstIdx_append_left a ws [w] ha, firstIdx_append_left b ws [w] hb]
      exact hab
    · rw [if_neg hw, List.pairwise_append]
      refine ⟨List.Pairwise.imp_of_mem ?_ ih, by simp, ?_⟩
      · intro a b ha hb hab
        rw [mem_dedupFirst] at ha hb
        rw [firstIdx_append_left a ws [w] ha, firstIdx_append_left b ws [w] hb]
        exact hab
      · intro a ha b hb
        rw [List.mem_singleton] at hb
        rw [hb]
        rw [mem_dedupFirst] at ha
        have hwm : w ∉ ws := fun hm => hw ((mem_dedupFirst ws w).mpr hm)
        rw [firstIdx_append_left a ws [w] ha,
          firstIdx_append_right w ws [w] hwm]
        have hlt := firstIdx_lt_length a ws ha
        omega

/-! ## Helper lemmas: the stable descending sort -/

theorem insertDesc_perm (x : List Char × Nat) (l : List (List Char × Nat)) :
    (insertDesc x l).Perm (x :: l) := by
  induction l with
  | nil => exact List.Perm.refl _
  | cons y ys ih =>
    rw [insertDesc]
    by_cases hle : x.2 ≤ y.2
    · rw [if_pos hle]
      exact (ih.cons y).trans (List.Perm.swap x y ys)
    · rw [if_neg hle]

theorem mem_insertDesc (x z : List Char × Nat) (l : List (List Char × Nat)) :
    z ∈ insertDesc x l ↔ z = x ∨ z ∈ l := by
  rw [(insertDesc_perm x l).mem_iff]
  simp

theorem foldl_insertDesc_perm (l : List (List Char × Nat)) :
    ∀ acc, (l.foldl (fun a x => insertDesc x a) acc).Perm (acc ++ l) := by
  induction l with
  | nil => intro acc; simp
  | cons x xs ih =>
    intro acc
    rw [List.foldl_cons]
    refine (ih (insertDesc x acc)).trans ?_
    refine (List.Perm.append_right xs (insertDesc_perm x acc)).trans ?_
    exact (List.perm_middle).symm

theorem sortByCountDesc_perm (l : List (List Char × Nat)) :
    (sortByCountDesc l).Perm l := by
  have h := foldl_insertDesc_perm l []
  rw [List.nil_append] at h
  exact h

theorem insertDesc_pairwise (R : (List Char × Nat) → (List Char × Nat) → Prop)
    (x : List Char × Nat) (acc : List (List Char × Nat))
    (hacc : acc.Pairwise (fun u v => v.2 < u.2 ∨ (u.2 = v.2 ∧ R u v)))
    (hR : ∀ y ∈ acc, R y x) :
    (insertDesc x acc).Pairwise (fun u v => v.2 < u.2 ∨ (u.2 = v.2 ∧ R u v)) := by
  induction acc with
  | nil => simp [insertDesc]
  | cons y ys ih =>
    rw [insertDesc]
    by_cases hle : x.2 ≤ y.2
    · rw [if_pos hle]
      rw [List.pairwise_cons] at hacc ⊢
      constructor
      · intro z hz
        rcases (mem_insertDesc x z ys).mp hz with hz | hz
        · subst hz
          rcases Nat.lt_or_ge z.2 y.2 with h | h
          · exact Or.inl h
          · exact Or.inr ⟨Nat.le_antisymm h hle, hR y (by simp)⟩
        · exact hacc.1 z hz
      · exact ih hacc.2 (fun y2 hy2 => hR y2 (by simp [hy2]))
    · rw [if_neg hle]
      have hxy : y.2 < x.2 := Nat.lt_of_not_le hle
      rw [List.pairwise_cons]
      constructor
      · intro z hz
        rcases List.mem_cons.mp hz with hz | hz
        · rw [hz]
          exact Or.inl hxy
        · have hyz := (List.pairwise_cons.mp hacc).1 z hz
          have hz2 : z.2 ≤ y.2 := by
            rcases hyz with h | h
            · exact Nat.le_of_lt h
            · omega
          exact Or.inl (by omega)
      · exact hacc

theorem foldl_insertDesc_pairwise
    (R : (List Char × Nat) → (List Char × Nat) → Prop) :
    ∀ (xs acc : List (List Char × Nat)),
      acc.Pairwise (fun u v => v.2 < u.2 ∨ (u.2 = v.2 ∧ R u v)) →
      xs.Pairwise R → (∀ x ∈ xs, ∀ y ∈ acc, R y x) →
      (xs.foldl (fun a x => insertDesc x a) acc).Pairwise
        (fun u v => v.2 < u.2 ∨ (u.2 = v.2 ∧ R u v)) := by
  intro xs
  induction xs with
  | nil => intro acc hacc _ _; exact hacc
  | cons x xs ih =>
    intro acc hacc hxs hcross
    rw [List.foldl_cons]
    refine ih (insertDesc x acc)
      (insertDesc_pairwise R x acc hacc (fun y hy => hcross x (by simp) y hy))
      (List.pairwise_cons.mp hxs).2 ?_
    intro x2 hx2 y hy
    rcases (mem_insertDesc x y acc).mp hy with hy | hy
    · rw [hy]
      exact (List.pairwise_cons.mp hxs).1 x2 hx2
    · exact hcross x2 (by simp [hx2]) y hy

theorem sortByCountDesc_pairwise
    (R : (List Char × Nat) → (List Char × Nat) → Prop)
    (l : List (List Char × Nat)) (hl : l.Pairwise R) :
    (sortByCountDesc l).Pairwise
      (fun u v => v.2 < u.2 ∨ (u.2 = v.2 ∧ R u v)) := by
  rw [sortByCountDesc]
  exact foldl_insertDesc_pairwise R l [] (by simp) hl (by simp)

/-! ## Claim C5 -/

/-- Claim C5: for every text and bound, `extract_keywords` returns at most
`maxKeywords` pairwise-distinct terms, ordered by non-increasing frequency
over the scanned (capitalised, non-stopword) words, with equal-frequency
terms ordered by the position of their first occurrence in the scanned
text — the stable-sort tie-break. -/
theorem c5_keywords_sorted (text : List Char) (maxKeywords : Nat) :
    (extract_keywords text maxKeywords).length ≤ maxKeywords ∧
      (extract_keywords text maxKeywords).Nodup ∧
      (extract_keywords text maxKeywords).Pairwise (fun a b =>
        (scannedWords text).count b < (scannedWords text).count a ∨
          ((scannedWords text).count a = (scannedWords text).count b ∧
            firstIdx a (scannedWords text) < firstIdx b (scannedWords text))) := by
  have hfreq : keywordFreq text =
      (dedupFirst (scannedWords text)).map
        (fun w => (w, (scannedWords text).count w)) := by
    rw [keywordFreq_eq_scanned, foldl_bumpFreq_eq]
  have hkeys : (keywordFreq text).map Prod.fst =
      dedupFirst (scannedWords text) := by
    rw [hfreq, List.map_map]
    rw [show (Prod.fst ∘ fun w => (w, (scannedWords text).count w)) = id
      from rfl, List.map_id]
  refine ⟨?_, ?_, ?_⟩
  · rw [extract_keywords, List.length_map, List.length_take]
    exact Nat.min_le_left _ _
  · rw [extract_keywords]
    refine List.Nodup.sublist
      (List.Sublist.map Prod.fst (List.take_sublist _ _)) ?_
    have hperm := (sortByCountDesc_perm (keywordFreq text)).map Prod.fst
    refine hperm.symm.nodup ?_
    rw [hkeys]
    exact nodup_dedupFirst (scannedWords text)
  · rw [extract_keywords, List.pairwise_map]
    have hfp : (keywordFreq text).Pairwise (fun u v =>
        firstIdx u.1 (scannedWords text) < firstIdx v.1 (scannedWords text)) := by
      rw [hfreq, List.pairwise_map]
      exact pairwise_firstIdx_dedupFirst (scannedWords text)
    have hsorted := sortByCountDesc_pairwise
      (fun u v => firstIdx u.1 (scannedWords text) <
        firstIdx v.1 (scannedWords text))
      (keywordFreq text) hfp
    have htake := List.Pairwise.sublist
      (List.take_sublist maxKeywords (sortByCountDesc (keywordFreq text)))
      hsorted
    refine List.Pairwise.imp_of_mem ?_ htake
    intro u v hu hv huv
    have hmem : ∀ z : List Char × Nat,
        z ∈ (sortByCountDesc (keywordFreq text)).take maxKeywords →
        z.2 = (scannedWords text).count z.1 := by
      intro z hz
      have h1 : z ∈ sortByCountDesc (keywordFreq text) :=
        (List.take_sublist _ _).subset hz
      have h2 : z ∈ keywordFreq text := (sortByCountDesc_perm _).subset h1
      rw [hfreq, List.mem_map] at h2
      obtain ⟨w, hw, rfl⟩ := h2
      rfl
    have hu2 := hmem u hu
    have hv2 := hmem v hv
    rcases huv with h | h
    · exact Or.inl (by rw [← hu2, ← hv2]; exact h)
    · exact Or.inr ⟨by rw [← hu2, ← hv2]; exact h.1, h.2⟩
